import Mathlib

/-!
Verification of the `rocket1u-exp` repository.

Part 1 models `src/lib/channel.rs`: a pedagogical MPSC channel built from a
mutex-protected queue (`BehindMutex { quque, senders_count }`), a condition
variable, and a receiver-local `swap_buffer`.  Because every access to the
shared state happens under the single mutex, an execution of the channel is a
sequence of atomic operations on the shared state; we embed each operation as
a pure function on a state record and reason about sequences of operations.

Part 2 models `src/lib/routing_table.rs`: a prefix trie with
longest-walked-prefix lookup and panic-on-double-registration.
-/

set_option maxHeartbeats 1000000
set_option synthInstance.maxHeartbeats 200000

namespace RocketChannel

/-- The state a channel execution can observe: the two fields of
`BehindMutex<T>` (`quque` — sic, the queue, front at the head of the list —
and `senders_count`) together with the `Receiver`'s private `swap_buffer`.
The condition variable carries no data, so it does not appear in the state;
`notify_one` calls are modelled as events where a claim needs them. -/
structure ChanState (T : Type) where
  quque : List T
  senders_count : Nat
  swap_buffer : List T
deriving DecidableEq

variable {T : Type}

/-- `Sender::send`: under the mutex, push the value at the back of the shared
queue.  Nothing else changes and the function is total (never fails, never
waits). -/
def send (t : T) (s : ChanState T) : ChanState T :=
  { s with quque := s.quque ++ [t] }

/-- `Clone for Sender`: under the mutex, `senders_count += 1`. -/
def cloneSender (s : ChanState T) : ChanState T :=
  { s with senders_count := s.senders_count + 1 }

/-- `Drop for Sender`: under the mutex, `senders_count -= 1`, remembering
`i_am_the_last = (senders_count == 0)` after the decrement; the Bool output
records whether `notify_one` is called (exactly when the decremented count
is zero). -/
def dropSender (s : ChanState T) : ChanState T × Bool :=
  let s2 := { s with senders_count := s.senders_count - 1 }
  (s2, s2.senders_count == 0)

/-- `Receiver::recv`.  `none` means the call reaches `Condvar::wait` (it
blocks: local buffer empty, queue empty, senders still alive); since the
state can only change between atomic operations, a blocked `recv` stays
blocked within one atomic step, so the loop is modelled by this single
state inspection.  `some (r, s2)` means the call returns `r` immediately,
leaving state `s2`.  The three arms mirror the source: pop the local
`swap_buffer` without locking; otherwise pop the shared queue (stealing the
whole remainder into `swap_buffer` via `std::mem::swap` when it is
non-empty); otherwise report closure when `senders_count == 0`. -/
def recv (s : ChanState T) : Option (Option T × ChanState T) :=
  match s.swap_buffer with
  | t :: rest => some (some t, { s with swap_buffer := rest })
  | [] =>
    match s.quque with
    | t :: rest =>
      if rest.isEmpty then some (some t, { s with quque := rest })
      else some (some t, { s with swap_buffer := rest, quque := s.swap_buffer })
    | [] => if s.senders_count == 0 then some (none, s) else none

/-- `channel()` with `BehindMutex::default()`: empty queue, `senders_count = 1`,
and the fresh `Receiver`'s empty `swap_buffer`. -/
def channelInit : ChanState T := ⟨[], 1, []⟩

/-- `channel()` also returns exactly one `Sender` handle (plus the one
`Receiver`); the first component counts the live `Sender` handles. -/
def channelWorld : Nat × ChanState T := (1, channelInit)

/-- The values sent but not yet received, in delivery order: the receiver
drains its local buffer before it re-locks the shared queue. -/
def pending (s : ChanState T) : List T :=
  s.swap_buffer ++ s.quque

/-- Send a burst of values in order. -/
def sendAll (vs : List T) (s : ChanState T) : ChanState T :=
  vs.foldl (fun a t => send t a) s

/-- Call `recv` `n` times, logging each immediate result; stop early if a
call would block. -/
def recvN : Nat → ChanState T → List (Option T) × ChanState T
  | 0, s => ([], s)
  | n + 1, s =>
    match recv s with
    | some (r, s2) =>
      let p := recvN n s2
      (r :: p.1, p.2)
    | none => ([], s)

lemma pending_send (t : T) (s : ChanState T) :
    pending (send t s) = pending s ++ [t] := by
  simp [pending, send]

lemma pending_channelInit : pending (channelInit : ChanState T) = [] := rfl

lemma pending_sendAll (vs : List T) :
    ∀ s : ChanState T, pending (sendAll vs s) = pending s ++ vs := by
  induction vs with
  | nil => intro s; simp [sendAll]
  | cons v vt ih =>
    intro s
    have h1 : sendAll (v :: vt) s = sendAll vt (send v s) := by
      simp [sendAll]
    rw [h1, ih, pending_send]
    simp

lemma senders_send (t : T) (s : ChanState T) :
    (send t s).senders_count = s.senders_count := rfl

lemma senders_sendAll (vs : List T) :
    ∀ s : ChanState T, (sendAll vs s).senders_count = s.senders_count := by
  induction vs with
  | nil => intro s; rfl
  | cons v vt ih =>
    intro s
    have h1 : sendAll (v :: vt) s = sendAll vt (send v s) := by
      simp [sendAll]
    rw [h1, ih, senders_send]

/-- When something is pending, `recv` immediately returns the front value and
the rest stays pending in order; the live-producer count is untouched. -/
lemma recv_pending_cons {s : ChanState T} {v : T} {rest : List T}
    (h : pending s = v :: rest) :
    ∃ s2, recv s = some (some v, s2) ∧ pending s2 = rest ∧
      s2.senders_count = s.senders_count := by
  obtain ⟨q, c, b⟩ := s
  cases b with
  | cons t tb =>
    simp only [pending, List.cons_append, List.cons.injEq] at h
    obtain ⟨rfl, hrest⟩ := h
    refine ⟨⟨q, c, tb⟩, ?_, ?_, rfl⟩
    · simp [recv]
    · simpa [pending] using hrest
  | nil =>
    simp only [pending, List.nil_append] at h
    subst h
    cases rest with
    | nil =>
      refine ⟨⟨[], c, []⟩, ?_, ?_, rfl⟩
      · simp [recv]
      · simp [pending]
    | cons r rs =>
      refine ⟨⟨[], c, r :: rs⟩, ?_, ?_, rfl⟩
      · simp [recv]
      · simp [pending]

/-- When nothing is pending and no sender is live, `recv` returns `none` and
leaves the state unchanged. -/
lemma recv_closed {s : ChanState T} (h0 : s.senders_count = 0)
    (h1 : s.swap_buffer = []) (h2 : s.quque = []) :
    recv s = some (none, s) := by
  obtain ⟨q, c, b⟩ := s
  simp only at h0 h1 h2
  subst h0; subst h1; subst h2
  simp [recv]

/-- Draining exactly the pending values: `recv` returns them in order and
ends with both buffers empty. -/
lemma recvN_drain (vs : List T) :
    ∀ s : ChanState T, pending s = vs →
      recvN vs.length s = (vs.map some, ⟨[], s.senders_count, []⟩) := by
  induction vs with
  | nil =>
    intro s h
    obtain ⟨q, c, b⟩ := s
    simp only [pending, List.append_eq_nil] at h
    obtain ⟨rfl, rfl⟩ := h
    simp [recvN]
  | cons v vt ih =>
    intro s h
    obtain ⟨s2, hstep, hp2, hc⟩ := recv_pending_cons h
    have h2 := ih s2 hp2
    simp only [List.length_cons, recvN, hstep, h2, hc, List.map_cons]

/-- Burst-drain fact shared by several claims: send `vs` from a fresh
channel, then `vs.length` calls to `recv` return exactly `vs` in order. -/
lemma drain_sendAll (vs : List T) :
    (recvN vs.length (sendAll vs channelInit)).1 = vs.map some := by
  have hp : pending (sendAll vs (channelInit : ChanState T)) = vs := by
    rw [pending_sendAll, pending_channelInit, List.nil_append]
  rw [recvN_drain vs _ hp]

/-- C1: for any sequence of values sent through a single Sender with
`send()`, successive `recv()` calls return exactly those values, in the same
order, each (structurally, i.e. propositionally) equal to the value passed
to the matching `send()`; `T` is arbitrary, so this covers compound and
nested values. -/
theorem fifo_value_fidelity (T : Type) (vs : List T) :
    (recvN vs.length (sendAll vs channelInit)).1 = vs.map some :=
  drain_sendAll vs

/-- C2: once every Sender is gone (`senders_count = 0`) and both the shared
queue and the local buffer are empty, `recv` returns `None` with the state
unchanged, and any number of further `recv` calls keep returning `None`:
the closed-and-drained state is terminal and permanent. -/
theorem closed_empty_terminal (T : Type) (s : ChanState T)
    (h0 : s.senders_count = 0) (h1 : s.swap_buffer = []) (h2 : s.quque = []) :
    recv s = some (none, s) ∧ ∀ n, recvN n s = (List.replicate n none, s) := by
  have hstep := recv_closed h0 h1 h2
  refine ⟨hstep, ?_⟩
  intro n
  induction n with
  | zero => simp [recvN]
  | succ m ih => simp [recvN, hstep, ih, List.replicate_succ]

/-- C2 witness: create a channel, drop the sole Sender immediately, and every
`recv` returns `None` forever (shown for two consecutive calls). -/
theorem closed_empty_terminal_witness :
    recv ((dropSender (channelInit : ChanState Nat)).1) =
      some (none, (dropSender (channelInit : ChanState Nat)).1) ∧
    recvN 2 ((dropSender (channelInit : ChanState Nat)).1) =
      (List.replicate 2 none, (dropSender (channelInit : ChanState Nat)).1) :=
  ⟨(closed_empty_terminal Nat _ rfl rfl rfl).1,
   (closed_empty_terminal Nat _ rfl rfl rfl).2 2⟩

/-- A Sender-handle lifecycle operation: `Clone for Sender` or
`Drop for Sender`. -/
inductive HOp where
  | cloneOp
  | dropOp
deriving DecidableEq

/-- One lifecycle step on a world `(live handles, shared state)`.  An
operation needs an existing handle to run on, so it is enabled only when at
least one handle is live; the Bool records whether the step called
`notify_one` (only a last `Drop` does). -/
def hstep (w : Nat × ChanState T) : HOp → Option ((Nat × ChanState T) × Bool)
  | .cloneOp =>
    if 1 ≤ w.1 then some ((w.1 + 1, cloneSender w.2), false) else none
  | .dropOp =>
    if 1 ≤ w.1 then some ((w.1 - 1, (dropSender w.2).1), (dropSender w.2).2)
    else none

/-- Run a sequence of lifecycle operations, logging each step's notify flag;
`none` if some operation was not enabled. -/
def hrun : List HOp → (Nat × ChanState T) → Option ((Nat × ChanState T) × List Bool)
  | [], w => some (w, [])
  | op :: ops, w =>
    match hstep w op with
    | some (w2, sig) => (hrun ops w2).map fun p => (p.1, sig :: p.2)
    | none => none

lemma hrun_from_zero {T : Type} {ops : List HOp} {c : ChanState T} {res}
    (h : hrun ops (0, c) = some res) : ops = [] ∧ res = ((0, c), []) := by
  cases ops with
  | nil => simp [hrun] at h; exact ⟨rfl, h.symm⟩
  | cons op rest =>
    cases op <;> simp [hrun, hstep] at h

/-- Core reference-count invariant, generalized over the starting point:
starting from `m ≥ 1` live handles whose shared count is also `m`, a
successful run keeps `senders_count` equal to the number of live handles and
emits `notify_one` exactly once if the run ends with zero handles (the 1 → 0
transition, after which no operation is enabled), and never otherwise. -/
lemma hrun_invariant {T : Type} (ops : List HOp) :
    ∀ (m : Nat) (c : ChanState T) (wf : Nat × ChanState T) (sigs : List Bool),
      1 ≤ m → c.senders_count = m → hrun ops (m, c) = some (wf, sigs) →
      wf.2.senders_count = wf.1 ∧
        sigs.count true = (if wf.1 = 0 then 1 else 0) := by
  induction ops with
  | nil =>
    intro m c wf sigs hm hc h
    simp [hrun] at h
    obtain ⟨h1, h2⟩ := h
    subst h1; subst h2
    constructor
    · exact hc
    · have : ¬ m = 0 := by omega
      simp [this]
  | cons op rest ih =>
    intro m c wf sigs hm hc h
    cases op with
    | cloneOp =>
      simp only [hrun, hstep, if_pos hm] at h
      obtain ⟨⟨wf2, sigs2⟩, hres, hdone⟩ := Option.map_eq_some'.mp h
      obtain ⟨h1, h2⟩ := Prod.mk.injEq .. ▸ hdone
      subst h1; subst h2
      have hc2 : (cloneSender c).senders_count = m + 1 := by
        simp [cloneSender, hc]
      have := ih (m + 1) (cloneSender c) wf2 sigs2 (by omega) hc2 hres
      simpa using this
    | dropOp =>
      simp only [hrun, hstep, if_pos hm] at h
      obtain ⟨⟨wf2, sigs2⟩, hres, hdone⟩ := Option.map_eq_some'.mp h
      obtain ⟨h1, h2⟩ := Prod.mk.injEq .. ▸ hdone
      subst h1; subst h2
      have hd1 : (dropSender c).1.senders_count = m - 1 := by
        simp [dropSender, hc]
      by_cases hm1 : m = 1
      · subst hm1
        have hz : (dropSender c).1.senders_count = 0 := by simp [hd1]
        obtain ⟨hops, hres0⟩ := hrun_from_zero (c := (dropSender c).1)
          (by simpa using hres)
        subst hops
        simp [hrun] at hres
        obtain ⟨hwf, hsigs⟩ := hres
        subst hwf; subst hsigs
        have hsig : (dropSender c).2 = true := by
          simp [dropSender, hc]
        simp [hsig, hz]
      · have hge : 1 ≤ m - 1 := by omega
        have := ih (m - 1) (dropSender c).1 wf2 sigs2 hge hd1 hres
        have hsig : (dropSender c).2 = false := by
          simp only [dropSender]
          simp only [beq_eq_false_iff_ne, ne_eq]
          simp [hc]
          omega
        simp [hsig, this.1, this.2]

/-- A successful run of `pre ++ suf` restricts to a successful run of
`pre`. -/
lemma hrun_append_left {T : Type} :
    ∀ (pre suf : List HOp) (w : Nat × ChanState T) res,
      hrun (pre ++ suf) w = some res →
      ∃ mid sigs, hrun pre w = some (mid, sigs) := by
  intro pre
  induction pre with
  | nil => intro suf w res _; exact ⟨w, [], rfl⟩
  | cons op rest ih =>
    intro suf w res h
    simp only [List.cons_append, hrun] at h
    cases hs : hstep w op with
    | none => rw [hs] at h; simp at h
    | some p =>
      rw [hs] at h
      obtain ⟨w2, sig⟩ := p
      obtain ⟨res2, hres2, _⟩ := Option.map_eq_some'.mp h
      obtain ⟨mid, sigs, hmid⟩ := ih suf w2 res2 hres2
      exact ⟨mid, sig :: sigs, by simp [hrun, hs, hmid]⟩

/-- C3: over any sequence of `channel()` (the start), `clone()` and Sender
destruction operations, the shared `senders_count` always equals the number
of live Sender handles (so it is ≥ 0 and hits 0 exactly when the last handle
dies), and `notify_one` is emitted by a destruction exactly once — at the
1 → 0 transition (runs ending with live handles emit none, runs ending at 0
emit exactly one and admit no further operation) — and this also holds at
every intermediate observation point (every prefix of the run). -/
theorem sender_count_correct (T : Type) (ops : List HOp)
    (wf : Nat × ChanState T) (sigs : List Bool)
    (h : hrun ops (channelWorld : Nat × ChanState T) = some (wf, sigs)) :
    wf.2.senders_count = wf.1 ∧
      sigs.count true = (if wf.1 = 0 then 1 else 0) ∧
      ∀ pre suf, ops = pre ++ suf →
        ∃ wm sigsm, hrun pre (channelWorld : Nat × ChanState T) = some (wm, sigsm) ∧
          wm.2.senders_count = wm.1 ∧
          sigsm.count true = (if wm.1 = 0 then 1 else 0) := by
  have hmain := hrun_invariant ops 1 channelInit wf sigs (by omega) rfl h
  refine ⟨hmain.1, hmain.2, ?_⟩
  intro pre suf hsplit
  subst hsplit
  obtain ⟨wm, sigsm, hmid⟩ := hrun_append_left pre suf _ _ h
  have := hrun_invariant pre 1 channelInit wm sigsm (by omega) rfl hmid
  exact ⟨wm, sigsm, hmid, this.1, this.2⟩

/-- C3 witness: clone the initial Sender, then drop both handles; the count
tracks the handles and exactly one notify fires, at the very end. -/
theorem sender_count_correct_witness :
    ((0 : Nat), (⟨[], 0, []⟩ : ChanState Nat)).2.senders_count =
      ((0 : Nat), (⟨[], 0, []⟩ : ChanState Nat)).1 ∧
    [false, false, true].count true =
      (if ((0 : Nat), (⟨[], 0, []⟩ : ChanState Nat)).1 = 0 then 1 else 0) :=
  ⟨(sender_count_correct Nat [.cloneOp, .dropOp, .dropOp]
      ((0 : Nat), (⟨[], 0, []⟩ : ChanState Nat)) [false, false, true] rfl).1,
   (sender_count_correct Nat [.cloneOp, .dropOp, .dropOp]
      ((0 : Nat), (⟨[], 0, []⟩ : ChanState Nat)) [false, false, true] rfl).2.1⟩

/-- Modelled from the spec: the naive reference receiver for the
swap-buffer-transparency comparison.  It has no local buffer and locks once
per message: every `recv` pops the front of the shared queue directly, and
reports closure when the queue is empty and no sender is live. -/
structure NaiveState (T : Type) where
  quque : List T
  senders_count : Nat
deriving DecidableEq

/-- Modelled from the spec: `send` for the naive reference channel — append
at the back of the shared queue. -/
def naiveSend (t : T) (s : NaiveState T) : NaiveState T :=
  { s with quque := s.quque ++ [t] }

/-- Modelled from the spec: one `recv` of the naive reference receiver
(`none` = the call would block). -/
def naiveRecv (s : NaiveState T) : Option (Option T × NaiveState T) :=
  match s.quque with
  | t :: rest => some (some t, { s with quque := rest })
  | [] => if s.senders_count == 0 then some (none, s) else none

/-- Modelled from the spec: the naive reference channel starts with an empty
queue and one live producer. -/
def naiveInit : NaiveState T := ⟨[], 1⟩

/-- A consumer-side schedule entry: a producer `send` or a consumer `recv`.
Any burst/interleaving pattern of sends and recvs is such a list. -/
inductive SOp (T : Type) where
  | send (t : T)
  | recv

/-- Run a schedule against the real channel, logging every `recv` result;
`none` if some `recv` in the schedule would block. -/
def runSched : List (SOp T) → ChanState T → Option (List (Option T) × ChanState T)
  | [], s => some ([], s)
  | .send t :: ops, s => runSched ops (send t s)
  | .recv :: ops, s =>
    match recv s with
    | some (r, s2) => (runSched ops s2).map fun p => (r :: p.1, p.2)
    | none => none

/-- Run a schedule against the naive reference channel. -/
def naiveRun : List (SOp T) → NaiveState T → Option (List (Option T) × NaiveState T)
  | [], s => some ([], s)
  | .send t :: ops, s => naiveRun ops (naiveSend t s)
  | .recv :: ops, s =>
    match naiveRecv s with
    | some (r, s2) => (naiveRun ops s2).map fun p => (r :: p.1, p.2)
    | none => none

/-- Prepending the same recv result to two runs with equal observation logs
keeps the logs equal, whatever the state components are. -/
lemma map_fst_cons_congr {L α β : Type} (o : Option (List L × α))
    (o2 : Option (List L × β)) (r : L)
    (h : o.map Prod.fst = o2.map Prod.fst) :
    (o.map fun p => (r :: p.1, p.2)).map Prod.fst =
      (o2.map fun p => (r :: p.1, p.2)).map Prod.fst := by
  cases o with
  | none =>
    cases o2 with
    | none => rfl
    | some p => simp at h
  | some p =>
    cases o2 with
    | none => simp at h
    | some p2 =>
      simp only [Option.map_some'] at h ⊢
      have h2 := Option.some.inj h
      simp [h2]

/-- Simulation: a channel state and a naive state with the same pending
values and the same live count produce identical observation logs on every
schedule (including whether the schedule blocks). -/
lemma runSched_sim : ∀ (sched : List (SOp T)) (s : ChanState T) (ns : NaiveState T),
    pending s = ns.quque → s.senders_count = ns.senders_count →
    (runSched sched s).map Prod.fst = (naiveRun sched ns).map Prod.fst := by
  intro sched
  induction sched with
  | nil => intro s ns _ _; simp [runSched, naiveRun]
  | cons op ops ih =>
    intro s ns hq hc
    cases op with
    | send t =>
      simp only [runSched, naiveRun]
      refine ih (send t s) (naiveSend t ns) ?_ ?_
      · rw [pending_send, hq]; rfl
      · simpa [naiveSend] using hc
    | recv =>
      cases hp : pending s with
      | nil =>
        obtain ⟨q, c, b⟩ := s
        simp only [pending, List.append_eq_nil] at hp
        obtain ⟨rfl, rfl⟩ := hp
        have hnq : ns.quque = [] := by simpa [pending] using hq.symm
        simp only at hc
        by_cases hz : c = 0
        · subst hz
          have h1 : recv (⟨[], 0, []⟩ : ChanState T) =
              some (none, ⟨[], 0, []⟩) := by simp [recv]
          have h2 : naiveRecv ns = some (none, ns) := by
            simp [naiveRecv, hnq, ← hc]
          simp only [runSched, naiveRun, h1, h2]
          exact map_fst_cons_congr _ _ _
            (ih (⟨[], 0, []⟩ : ChanState T) ns (by simp [pending, hnq]) hc)
        · have h1 : recv (⟨[], c, []⟩ : ChanState T) = none := by
            simp [recv, hz]
          have h2 : naiveRecv ns = none := by
            simp [naiveRecv, hnq, ← hc, hz]
          simp [runSched, naiveRun, h1, h2]
      | cons v rest =>
        obtain ⟨s2, hstep, hp2, hc2⟩ := recv_pending_cons hp
        have hnq : ns.quque = v :: rest := by rw [← hq, hp]
        have h2 : naiveRecv ns = some (some v, { ns with quque := rest }) := by
          simp [naiveRecv, hnq]
        have hrel := ih s2 { ns with quque := rest } (by simp [hp2]) (by simp [hc2, hc])
        simp only [runSched, naiveRun, hstep, h2]
        exact map_fst_cons_congr _ _ _ hrel

/-- C4: the receiver with the swap-buffer optimization is observationally
equivalent to the naive lock-per-message receiver: on every schedule of
sends and recvs (bursts, one-at-a-time interleavings, and anything else) the
two produce the same log of received values, and block at the same point if
at all; in particular the swap moves the whole remaining queue into the
local buffer without loss or reordering. -/
theorem swap_buffer_transparent (T : Type) (sched : List (SOp T)) :
    (runSched sched (channelInit : ChanState T)).map Prod.fst =
      (naiveRun sched (naiveInit : NaiveState T)).map Prod.fst :=
  runSched_sim sched channelInit naiveInit rfl rfl

/-- C5: `recv` reaches the condition-variable wait exactly when the local
buffer is empty, the shared queue is empty, and at least one Sender is live;
in every other state it returns immediately (with a value or the closure
marker).  The wait re-check is the `recv` loop itself: a wake that changed
nothing re-evaluates the same three conditions, so a spurious wakeup cannot
produce a wrong return. -/
theorem recv_blocks_iff (T : Type) (s : ChanState T) :
    recv s = none ↔
      s.swap_buffer = [] ∧ s.quque = [] ∧ 1 ≤ s.senders_count := by
  obtain ⟨q, c, b⟩ := s
  cases b with
  | cons t tb => simp [recv]
  | nil =>
    cases q with
    | cons t q2 =>
      cases q2 <;> simp [recv]
    | nil =>
      by_cases hz : c = 0
      · subst hz; simp [recv]
      · simp [recv, hz]
        omega

/-- C6: `send` appends the value at the back of the shared queue and changes
nothing else — the existing queue contents keep their order, the
live-producer count is unchanged, the receiver's local buffer is unchanged —
and it is a total function (it never fails and never waits for capacity or
for the Receiver; no Receiver-liveness input exists at all). -/
theorem send_frame (T : Type) (t : T) (s : ChanState T) :
    (send t s).quque = s.quque ++ [t] ∧
      (send t s).senders_count = s.senders_count ∧
      (send t s).swap_buffer = s.swap_buffer :=
  ⟨rfl, rfl, rfl⟩

/-- C7: `channel()` builds exactly one shared state with an empty queue and
`senders_count = 1`, and hands out exactly one Sender handle together with
the one Receiver, whose local buffer starts empty (the model's single state
record is the one shared state both handles reference). -/
theorem channel_init_spec (T : Type) :
    (channelInit : ChanState T).quque = [] ∧
      (channelInit : ChanState T).senders_count = 1 ∧
      (channelInit : ChanState T).swap_buffer = [] ∧
      (channelWorld : Nat × ChanState T).1 = 1 :=
  ⟨rfl, rfl, rfl, rfl⟩

/-- `Interleave prods ms`: `ms` is an interleaving of the per-producer send
sequences `prods` that preserves each producer's own order — exactly the
global orders the mutex can serialize M concurrent producers into. -/
inductive Interleave : List (List T) → List T → Prop where
  | nil : ∀ ls, (∀ l ∈ ls, l = []) → Interleave ls []
  | cons : ∀ (ls : List (List T)) (i : Nat) (hi : i < ls.length) (x : T)
      (rest : List T) (ms : List T),
      ls.get ⟨i, hi⟩ = x :: rest →
      Interleave (ls.set i rest) ms →
      Interleave ls (x :: ms)

lemma flatten_eq_nil_of_all_nil {ls : List (List T)} (h : ∀ l ∈ ls, l = []) :
    ls.flatten = [] := by
  induction ls with
  | nil => simp
  | cons l lt ih =>
    have h1 : l = [] := h l (by simp)
    have h2 : ∀ x ∈ lt, x = [] := fun x hx => h x (by simp [hx])
    simp [h1, ih h2]

lemma flatten_set_perm :
    ∀ (ls : List (List T)) (i : Nat) (hi : i < ls.length) (x : T)
      (rest : List T), ls.get ⟨i, hi⟩ = x :: rest →
      ls.flatten.Perm (x :: (ls.set i rest).flatten) := by
  intro ls
  induction ls with
  | nil => intro i hi; simp at hi
  | cons l lt ih =>
    intro i hi x rest hget
    cases i with
    | zero =>
      simp only [List.get] at hget
      subst hget
      simp [List.set]
    | succ j =>
      simp only [List.get] at hget
      have hj : j < lt.length := by simpa using hi
      have hperm := ih j hj x rest hget
      have h1 : (l :: lt).flatten = l ++ lt.flatten := by simp
      have h2 : ((l :: lt).set (j + 1) rest).flatten =
          l ++ (lt.set j rest).flatten := by simp [List.set]
      rw [h1, h2]
      exact (hperm.append_left l).trans List.perm_middle

/-- Any interleaving of the producers' sequences delivers each sent value
exactly once: it is a permutation of the union of the producers' values. -/
lemma interleave_perm {ls : List (List T)} {ms : List T}
    (h : Interleave ls ms) : ms.Perm ls.flatten := by
  induction h with
  | nil ls hall =>
    rw [flatten_eq_nil_of_all_nil hall]
  | cons ls i hi x rest ms hget _ ih =>
    have hstep := flatten_set_perm ls i hi x rest hget
    exact (ih.cons x).trans hstep.symm

/-- C8: if `M` producers concurrently send their own value sequences, the
mutex serializes the sends into some interleaving `ms` that preserves each
producer's own order (`Interleave prods ms`); the consumer then observes
exactly `ms` — every sent value exactly once (`ms` is a permutation of the
union of the producers' values), with no loss and no duplication. -/
theorem no_loss_under_concurrency (T : Type) (prods : List (List T))
    (ms : List T) (h : Interleave prods ms) :
    (recvN ms.length (sendAll ms channelInit)).1 = ms.map some ∧
      ms.Perm prods.flatten :=
  ⟨drain_sendAll ms, interleave_perm h⟩

/-- C8 witness: two producers sending `[1, 2]` and `[3]`, serialized as
`1, 3, 2`; the consumer sees exactly those three values. -/
theorem no_loss_under_concurrency_witness :
    (recvN [1, 3, 2].length (sendAll [1, 3, 2] channelInit)).1 =
      ([1, 3, 2] : List Nat).map some ∧
      ([1, 3, 2] : List Nat).Perm ([[1, 2], [3]] : List (List Nat)).flatten :=
  no_loss_under_concurrency Nat [[1, 2], [3]] [1, 3, 2]
    (Interleave.cons _ 0 (by decide) 1 [2] _ rfl
      (Interleave.cons _ 1 (by decide) 3 [] _ rfl
        (Interleave.cons _ 0 (by decide) 2 [] _ rfl
          (Interleave.nil _ (by decide)))))

end RocketChannel

namespace RocketRouting

/-- `RoutingTable<'a, T>`: a trie node with a map from path segments to
child nodes (the `HashMap` is modelled as an association list — the code
only ever uses keyed `get`/`get_mut`/`insert`, never iteration), a data
payload, and the node's depth. -/
inductive RT (T : Type) where
  | mk (map : List (String × RT T)) (data : T) (depth : Nat)

variable {T : Type}

def RT.map : RT T → List (String × RT T)
  | .mk m _ _ => m

def RT.data : RT T → T
  | .mk _ d _ => d

def RT.depth : RT T → Nat
  | .mk _ _ dep => dep

/-- `HashMap::get`: look a key up (each key occurs at most once because
`insert` replaces). -/
def mapGet {β : Type} : List (String × β) → String → Option β
  | [], _ => none
  | (k, v) :: rest, key => if k = key then some v else mapGet rest key

/-- `HashMap::insert` (and the in-place mutation through `get_mut`):
replace the value at the key if present, else add the binding. -/
def mapInsert {β : Type} : List (String × β) → String → β → List (String × β)
  | [], key, val => [(key, val)]
  | (k, v) :: rest, key, val =>
    if k = key then (key, val) :: rest else (k, v) :: mapInsert rest key val

/-- `RoutingTable::new_core`. -/
def new_core (root_data : T) (depth : Nat) : RT T :=
  .mk [] root_data depth

/-- `RoutingTable::new`. -/
def RT.new (root_data : T) : RT T :=
  new_core root_data 0

/-- `OneOrMore<'a>`. -/
inductive OneOrMore where
  | one (s : String)
  | more (ss : List String)

/-- `RTLookupResult<'a, T>`. -/
structure RTLookupResult (T : Type) where
  val : T
  depth : Nat
  keys_used : Nat
  keep_going : RT T

/-- `RoutingTable::register_one_core`, with `register_more_core` (dispatch
on `One`/`More`) and the `More` for-loop inlined as a fold; `none` models
the `panic!("Double registration error")`.  When `rest_rt` is exhausted the
final node is inserted fresh (or the registration panics if the node
already exists); otherwise the walk continues through the existing child or
through a freshly created implicit layer carrying the current node's data. -/
def register_one_core : RT T → T → String → List OneOrMore → Option (RT T)
  | .mk map data depth, entity, next_rt, [] =>
    match mapGet map next_rt with
    | some _ => none
    | none =>
      some (.mk (mapInsert map next_rt (new_core entity (depth + 1))) data depth)
  | .mk map data depth, entity, next_rt, r0 :: rest_rt =>
    let target :=
      match mapGet map next_rt with
      | some found => found
      | none => new_core data (depth + 1)
    let sub :=
      match r0 with
      | .one s => register_one_core target entity s rest_rt
      | .more ss =>
        ss.foldlM (fun acc s => register_one_core acc entity s rest_rt) target
    sub.map fun f => .mk (mapInsert map next_rt f) data depth
termination_by _ _ _ rest => rest.length
decreasing_by all_goals simp

/-- `RoutingTable::register`: wrap the route's tail in `OneOrMore::One` and
descend; the empty route panics (`none`). -/
def register (t : RT T) (entity : T) (route : List String) : Option (RT T) :=
  match route with
  | r0 :: rrest => register_one_core t entity r0 (rrest.map OneOrMore.one)
  | [] => none

/-- `RoutingTable::lookup_core`: follow the keys from index `start` while a
child exists; on the first miss (or when the keys run out) return the
current node's data, depth, and the number of keys consumed. -/
def lookup_core (t : RT T) (keys : List String) (start : Nat) :
    Option (RTLookupResult T) :=
  match h : keys.get? start with
  | some key =>
    match mapGet t.map key with
    | some m => lookup_core m keys (start + 1)
    | none => some ⟨t.data, t.depth, start, t⟩
  | none => some ⟨t.data, t.depth, start, t⟩
termination_by keys.length - start
decreasing_by
  have := (List.get?_eq_some.mp h).1
  omega

/-- `RoutingTable::lookup`. -/
def lookup (t : RT T) (keys : List String) : Option (RTLookupResult T) :=
  lookup_core t keys 0

/-- Build a table from the root by a sequence of successful `register`
calls (`none` as soon as one registration panics). -/
def buildTable : RT T → List (List String × T) → Option (RT T)
  | t, [] => some t
  | t, (route, v) :: regs =>
    match register t v route with
    | some t2 => buildTable t2 regs
    | none => none

/-- Structural twin of `register_one_core` for the plain-segment routes that
`RoutingTable::register` produces (every element wrapped in `One`); proved
equal to `register_one_core` on such routes below. -/
def registerSegs : RT T → T → String → List String → Option (RT T)
  | .mk map data depth, entity, next_rt, [] =>
    match mapGet map next_rt with
    | some _ => none
    | none =>
      some (.mk (mapInsert map next_rt (new_core entity (depth + 1))) data depth)
  | .mk map data depth, entity, next_rt, s :: rest =>
    let target :=
      match mapGet map next_rt with
      | some found => found
      | none => new_core data (depth + 1)
    (registerSegs target entity s rest).map fun f =>
      .mk (mapInsert map next_rt f) data depth

lemma register_one_eq_segs :
    ∀ (rest : List String) (t : RT T) (e : T) (next : String),
      register_one_core t e next (rest.map OneOrMore.one) =
        registerSegs t e next rest := by
  intro rest
  induction rest with
  | nil =>
    intro t e next
    cases t with
    | mk m d dep => simp [register_one_core, registerSegs]
  | cons s rest2 ih =>
    intro t e next
    cases t with
    | mk m d dep =>
      simp only [List.map_cons, register_one_core, registerSegs]
      rw [ih]

lemma register_eq_segs (t : RT T) (e : T) (s : String) (rest : List String) :
    register t e (s :: rest) = registerSegs t e s rest :=
  register_one_eq_segs rest t e s

lemma mapGet_insert_self {β : Type} :
    ∀ (m : List (String × β)) (k : String) (v : β),
      mapGet (mapInsert m k v) k = some v := by
  intro m
  induction m with
  | nil => intro k v; simp [mapInsert, mapGet]
  | cons kv rest ih =>
    intro k v
    obtain ⟨k0, v0⟩ := kv
    by_cases hk : k0 = k
    · simp [mapInsert, mapGet, hk]
    · simp [mapInsert, mapGet, hk, ih]

lemma mapGet_insert_ne {β : Type} :
    ∀ (m : List (String × β)) (k : String) (v : β) (k2 : String), k ≠ k2 →
      mapGet (mapInsert m k v) k2 = mapGet m k2 := by
  intro m
  induction m with
  | nil => intro k v k2 h; simp [mapInsert, mapGet, h]
  | cons kv rest ih =>
    intro k v k2 h
    obtain ⟨k0, v0⟩ := kv
    by_cases hk : k0 = k
    · subst hk
      simp [mapInsert, mapGet, h]
    · simp only [mapInsert, if_neg hk, mapGet]
      by_cases hk2 : k0 = k2
      · simp [hk2]
      · simp [hk2, ih k v k2 h]

/-- The node reached by following `p` from `t`, if the whole chain exists. -/
def nodeAt : RT T → List String → Option (RT T)
  | t, [] => some t
  | t, k :: ks =>
    match mapGet t.map k with
    | some sub => nodeAt sub ks
    | none => none

/-- The last existing node on the walk of `keys` from `t` (the node
`lookup_core` stops at). -/
def walkNode : RT T → List String → RT T
  | t, [] => t
  | t, k :: ks =>
    match mapGet t.map k with
    | some sub => walkNode sub ks
    | none => t

/-- How many keys the walk of `keys` from `t` consumes. -/
def walkLen : RT T → List String → Nat
  | _, [] => 0
  | t, k :: ks =>
    match mapGet t.map k with
    | some sub => walkLen sub ks + 1
    | none => 0

/-- Structural twin of `lookup_core` taking the remaining keys as a list. -/
def lookupList : RT T → List String → Nat → Option (RTLookupResult T)
  | t, [], start => some ⟨t.data, t.depth, start, t⟩
  | t, key :: rem, start =>
    match mapGet t.map key with
    | some m => lookupList m rem (start + 1)
    | none => some ⟨t.data, t.depth, start, t⟩

lemma lookup_core_eq_list (keys : List String) :
    ∀ (n : Nat) (t : RT T) (start : Nat), keys.length - start ≤ n →
      lookup_core t keys start = lookupList t (keys.drop start) start := by
  intro n
  induction n with
  | zero =>
    intro t start h
    have hlen : keys.length ≤ start := by omega
    have hget : keys.get? start = none := List.get?_eq_none.mpr hlen
    have hdrop : keys.drop start = [] := List.drop_eq_nil_of_le hlen
    rw [lookup_core]
    split
    · rename_i key heq
      rw [hget] at heq
      exact absurd heq (by simp)
    · rw [hdrop]
      simp [lookupList]
  | succ n2 ih =>
    intro t start h
    cases hget : keys.get? start with
    | none =>
      have hdrop : keys.drop start = [] :=
        List.drop_eq_nil_of_le (List.get?_eq_none.mp hget)
      rw [lookup_core]
      split
      · rename_i key heq
        rw [hget] at heq
        exact absurd heq (by simp)
      · rw [hdrop]
        simp [lookupList]
    | some key =>
      have hlt : start < keys.length := (List.get?_eq_some.mp hget).1
      have hdrop : keys.drop start = key :: keys.drop (start + 1) := by
        rw [List.drop_eq_getElem_cons hlt]
        have hk : keys[start] = key := by
          have h2 := (List.get?_eq_some.mp hget).2
          simpa [List.get_eq_getElem] using h2
        rw [hk]
      rw [lookup_core]
      split
      · rename_i key2 heq
        rw [hget] at heq
        injection heq with hk2
        subst hk2
        rw [hdrop]
        simp only [lookupList]
        cases hmg : mapGet t.map key with
        | some sub => exact ih sub (start + 1) (by omega)
        | none => rfl
      · rename_i heq
        rw [hget] at heq
        exact absurd heq (by simp)

lemma lookup_eq_list (t : RT T) (keys : List String) :
    lookup t keys = lookupList t keys 0 := by
  rw [lookup, lookup_core_eq_list keys keys.length t 0 (by omega)]
  rfl

lemma nil_pre (l : List String) : [] <+: l :=
  ⟨l, rfl⟩

lemma take_pre (l : List String) (n : Nat) : l.take n <+: l :=
  ⟨l.drop n, List.take_append_drop n l⟩

lemma isPrefixOf_iff {l1 l2 : List String} : l1.isPrefixOf l2 = true ↔ l1 <+: l2 :=
  List.isPrefixOf_iff_prefix

lemma pre_nil {l : List String} : l <+: [] ↔ l = [] := by
  constructor
  · rintro ⟨tl, htl⟩
    cases l with
    | nil => rfl
    | cons a b => exact absurd htl (by simp)
  · rintro rfl
    exact nil_pre []

lemma nodeAt_cons_some {t : RT T} {k : String} {sub : RT T}
    (hm : mapGet t.map k = some sub) (p : List String) :
    nodeAt t (k :: p) = nodeAt sub p := by
  simp [nodeAt, hm]

lemma nodeAt_cons_none {t : RT T} {k : String}
    (hm : mapGet t.map k = none) (p : List String) :
    nodeAt t (k :: p) = none := by
  simp [nodeAt, hm]

lemma walkNode_cons_some {t : RT T} {k : String} {sub : RT T}
    (hm : mapGet t.map k = some sub) (p : List String) :
    walkNode t (k :: p) = walkNode sub p := by
  simp [walkNode, hm]

lemma walkNode_cons_none {t : RT T} {k : String}
    (hm : mapGet t.map k = none) (p : List String) :
    walkNode t (k :: p) = t := by
  simp [walkNode, hm]

lemma nodeAt_emptyMap (p : List String) (d : T) (dep : Nat) :
    (nodeAt (RT.mk [] d dep) p).isSome ↔ p = [] := by
  cases p with
  | nil => simp [nodeAt]
  | cons k ks => simp [nodeAt, RT.map, mapGet]

lemma registerSegs_nil_some {m : List (String × RT T)} {d : T} {dep : Nat}
    {e : T} {s : String} (hm : mapGet m s = none) :
    registerSegs (RT.mk m d dep) e s [] =
      some (RT.mk (mapInsert m s (new_core e (dep + 1))) d dep) := by
  simp [registerSegs, hm]

lemma registerSegs_nil_none {m : List (String × RT T)} {d : T} {dep : Nat}
    {e : T} {s : String} {x : RT T} (hm : mapGet m s = some x) :
    registerSegs (RT.mk m d dep) e s [] = none := by
  simp [registerSegs, hm]

lemma registerSegs_cons_found {m : List (String × RT T)} {d : T} {dep : Nat}
    {e : T} {s : String} {found : RT T} (hm : mapGet m s = some found)
    (s2 : String) (r2 : List String) :
    registerSegs (RT.mk m d dep) e s (s2 :: r2) =
      (registerSegs found e s2 r2).map fun f =>
        RT.mk (mapInsert m s f) d dep := by
  simp [registerSegs, hm]

lemma registerSegs_cons_fresh {m : List (String × RT T)} {d : T} {dep : Nat}
    {e : T} {s : String} (hm : mapGet m s = none)
    (s2 : String) (r2 : List String) :
    registerSegs (RT.mk m d dep) e s (s2 :: r2) =
      (registerSegs (RT.mk [] d (dep + 1)) e s2 r2).map fun f =>
        RT.mk (mapInsert m s f) d dep := by
  simp [registerSegs, hm, new_core]

/-- The chains of a trie are closed under prefixes. -/
lemma nodeAt_isSome_of_pre :
    ∀ (q p : List String) (t : RT T), q <+: p →
      (nodeAt t p).isSome → (nodeAt t q).isSome := by
  intro q
  induction q with
  | nil => intro p t _ _; simp [nodeAt]
  | cons a q2 ih =>
    intro p t hq hp
    cases p with
    | nil =>
      obtain ⟨tail, htail⟩ := hq
      exact absurd htail (by simp)
    | cons b p2 =>
      obtain ⟨hab, hq2⟩ := List.cons_prefix_cons.mp hq
      subst hab
      cases hm : mapGet t.map a with
      | some sub =>
        simp only [nodeAt, hm] at hp ⊢
        exact ih p2 sub hq2 hp
      | none => simp [nodeAt, hm] at hp

lemma walkLen_le : ∀ (keys : List String) (t : RT T), walkLen t keys ≤ keys.length := by
  intro keys
  induction keys with
  | nil => intro t; simp [walkLen]
  | cons k ks ih =>
    intro t
    cases hm : mapGet t.map k with
    | some sub =>
      simp only [walkLen, hm, List.length_cons]
      exact Nat.succ_le_succ (ih sub)
    | none => simp [walkLen, hm]

lemma nodeAt_take_walkLen :
    ∀ (keys : List String) (t : RT T),
      nodeAt t (keys.take (walkLen t keys)) = some (walkNode t keys) := by
  intro keys
  induction keys with
  | nil => intro t; simp [walkLen, walkNode, nodeAt]
  | cons k ks ih =>
    intro t
    cases hm : mapGet t.map k with
    | some sub =>
      simp only [walkLen, walkNode, hm, List.take_succ_cons, nodeAt]
      exact ih sub
    | none => simp [walkLen, walkNode, hm, nodeAt]

lemma le_walkLen_of_chain :
    ∀ (keys : List String) (n : Nat) (t : RT T), n ≤ keys.length →
      (nodeAt t (keys.take n)).isSome → n ≤ walkLen t keys := by
  intro keys
  induction keys with
  | nil => intro n t hn _; simpa [walkLen] using hn
  | cons k ks ih =>
    intro n t hn hsome
    cases n with
    | zero => omega
    | succ m =>
      simp only [List.take_succ_cons] at hsome
      cases hm : mapGet t.map k with
      | some sub =>
        simp only [nodeAt, hm] at hsome
        have := ih m sub (by simpa using hn) hsome
        simp only [walkLen, hm]
        omega
      | none => simp [nodeAt, hm] at hsome

/-- Depth discipline: every node's depth is its distance from `t` plus
`t`'s depth (maintained by `new_core (· + 1)` at every creation). -/
def DepthOk (t : RT T) : Prop :=
  ∀ p n, nodeAt t p = some n → n.depth = t.depth + p.length

lemma depthOk_sub {t : RT T} (h : DepthOk t) {k : String} {sub : RT T}
    (hm : mapGet t.map k = some sub) :
    DepthOk sub ∧ sub.depth = t.depth + 1 := by
  have h1 : nodeAt t [k] = some sub := by simp [nodeAt, hm]
  have hdep : sub.depth = t.depth + 1 := by simpa using h [k] sub h1
  refine ⟨?_, hdep⟩
  intro p n hn
  have h2 : nodeAt t (k :: p) = some n := by simp [nodeAt, hm, hn]
  have := h (k :: p) n h2
  simp only [List.length_cons] at this
  omega

/-- Registering anything on a node with an empty child map always
succeeds. -/
lemma registerSegs_isSome_of_empty :
    ∀ (rest : List String) (d : T) (dep : Nat) (e : T) (s : String),
      (registerSegs (RT.mk [] d dep) e s rest).isSome := by
  intro rest
  induction rest with
  | nil => intro d dep e s; simp [registerSegs, mapGet]
  | cons s2 r2 ih =>
    intro d dep e s
    simp only [registerSegs, mapGet, new_core, Option.isSome_map']
    exact ih d (dep + 1) e s2

/-- `register_one_core` panics exactly when the route's final node already
exists in the trie. -/
lemma registerSegs_none_iff :
    ∀ (rest : List String) (t : RT T) (e : T) (s : String),
      registerSegs t e s rest = none ↔ (nodeAt t (s :: rest)).isSome := by
  intro rest
  induction rest with
  | nil =>
    intro t e s
    cases t with
    | mk m d dep =>
      cases hm : mapGet m s with
      | some x => simp [registerSegs, hm, nodeAt, RT.map]
      | none => simp [registerSegs, hm, nodeAt, RT.map]
  | cons s2 r2 ih =>
    intro t e s
    cases t with
    | mk m d dep =>
      cases hm : mapGet m s with
      | some found =>
        simp only [registerSegs, hm, Option.map_eq_none', nodeAt, RT.map]
        exact ih found e s2
      | none =>
        have hs := registerSegs_isSome_of_empty r2 d (dep + 1) e s2
        constructor
        · intro hnone
          simp only [registerSegs, hm, Option.map_eq_none', new_core] at hnone
          rw [hnone] at hs
          simp at hs
        · intro habs
          simp [nodeAt, RT.map, hm] at habs

/-- Successful registration: every node that existed before still exists,
with the same data and the same depth. -/
lemma registerSegs_preserve :
    ∀ (rest : List String) (t t2 : RT T) (e : T) (s : String)
      (p : List String) (n : RT T),
      registerSegs t e s rest = some t2 → nodeAt t p = some n →
      ∃ m, nodeAt t2 p = some m ∧ m.data = n.data ∧ m.depth = n.depth := by
  intro rest
  induction rest with
  | nil =>
    intro t t2 e s p n h hn
    cases t with
    | mk m d dep =>
      cases hm : mapGet m s with
      | some x => simp [registerSegs, hm] at h
      | none =>
        simp only [registerSegs, hm, Option.some.injEq] at h
        subst h
        cases p with
        | nil =>
          simp only [nodeAt, Option.some.injEq] at hn
          subst hn
          exact ⟨_, rfl, rfl, rfl⟩
        | cons k p2 =>
          by_cases hk : k = s
          · subst hk
            simp [nodeAt, RT.map, hm] at hn
          · have hne : s ≠ k := fun hh => hk hh.symm
            simp only [nodeAt, RT.map] at hn ⊢
            rw [mapGet_insert_ne m s _ k hne]
            exact ⟨n, hn, rfl, rfl⟩
  | cons s2 r2 ih =>
    intro t t2 e s p n h hn
    cases t with
    | mk m d dep =>
      obtain ⟨f, hf, ht2⟩ := Option.map_eq_some'.mp h
      subst ht2
      cases p with
      | nil =>
        simp only [nodeAt, Option.some.injEq] at hn
        subst hn
        exact ⟨_, rfl, rfl, rfl⟩
      | cons k p2 =>
        by_cases hk : k = s
        · subst hk
          cases hm : mapGet m k with
          | some found =>
            rw [hm] at hf
            simp only [nodeAt, RT.map, hm] at hn
            obtain ⟨mm, hmm, hd, hdep⟩ := ih found f e s2 p2 n hf hn
            refine ⟨mm, ?_, hd, hdep⟩
            simp only [nodeAt, RT.map]
            rw [mapGet_insert_self]
            exact hmm
          | none => simp [nodeAt, RT.map, hm] at hn
        · have hne : s ≠ k := fun hh => hk hh.symm
          simp only [nodeAt, RT.map] at hn ⊢
          rw [mapGet_insert_ne m s _ k hne]
          exact ⟨n, hn, rfl, rfl⟩

/-- Successful registration: the chains of the new trie are the old chains
plus the prefixes of the registered route. -/
lemma registerSegs_chains :
    ∀ (rest : List String) (t t2 : RT T) (e : T) (s : String),
      registerSegs t e s rest = some t2 →
      ∀ p, (nodeAt t2 p).isSome ↔
        ((nodeAt t p).isSome ∨ p <+: (s :: rest)) := by
  intro rest
  induction rest with
  | nil =>
    intro t t2 e s h p
    cases t with
    | mk m d dep =>
      cases hm : mapGet m s with
      | some x => rw [registerSegs_nil_none hm] at h; exact absurd h (by simp)
      | none =>
        rw [registerSegs_nil_some hm] at h
        have ht2 := Option.some.inj h
        subst ht2
        cases p with
        | nil => simp [nodeAt]
        | cons k p2 =>
          by_cases hk : k = s
          · subst hk
            have hg : mapGet (RT.mk (mapInsert m k (new_core e (dep + 1))) d dep).map k =
                some (new_core e (dep + 1)) := by
              simp only [RT.map]
              exact mapGet_insert_self m k _
            rw [nodeAt_cons_some hg p2]
            have hn : mapGet (RT.mk m d dep).map k = none := by
              simpa [RT.map] using hm
            rw [nodeAt_cons_none hn p2]
            rw [List.cons_prefix_cons]
            show (nodeAt (RT.mk [] e (dep + 1)) p2).isSome ↔ _
            rw [nodeAt_emptyMap p2 e (dep + 1)]
            simp [pre_nil]
          · have hne : s ≠ k := fun hh => hk hh.symm
            have hg : mapGet (RT.mk (mapInsert m s (new_core e (dep + 1))) d dep).map k =
                mapGet m k := by
              simp only [RT.map]
              exact mapGet_insert_ne m s _ k hne
            rw [List.cons_prefix_cons]
            cases hmk : mapGet m k with
            | some sub =>
              rw [nodeAt_cons_some (hg.trans hmk) p2]
              rw [nodeAt_cons_some (t := RT.mk m d dep) (by simpa [RT.map] using hmk) p2]
              simp [hk]
            | none =>
              rw [nodeAt_cons_none (hg.trans hmk) p2]
              rw [nodeAt_cons_none (t := RT.mk m d dep) (by simpa [RT.map] using hmk) p2]
              simp [hk]
  | cons s2 r2 ih =>
    intro t t2 e s h p
    cases t with
    | mk m d dep =>
      cases hm : mapGet m s with
      | some found =>
        rw [registerSegs_cons_found hm s2 r2] at h
        obtain ⟨f, hf, ht2⟩ := Option.map_eq_some'.mp h
        subst ht2
        cases p with
        | nil => simp [nodeAt]
        | cons k p2 =>
          by_cases hk : k = s
          · subst hk
            have hg : mapGet (RT.mk (mapInsert m k f) d dep).map k = some f := by
              simp only [RT.map]
              exact mapGet_insert_self m k f
            rw [nodeAt_cons_some hg p2]
            rw [nodeAt_cons_some (t := RT.mk m d dep) (by simpa [RT.map] using hm) p2]
            rw [List.cons_prefix_cons]
            rw [ih found f e s2 hf p2]
            simp
          · have hne : s ≠ k := fun hh => hk hh.symm
            have hg : mapGet (RT.mk (mapInsert m s f) d dep).map k = mapGet m k := by
              simp only [RT.map]
              exact mapGet_insert_ne m s f k hne
            rw [List.cons_prefix_cons]
            cases hmk : mapGet m k with
            | some sub =>
              rw [nodeAt_cons_some (hg.trans hmk) p2]
              rw [nodeAt_cons_some (t := RT.mk m d dep) (by simpa [RT.map] using hmk) p2]
              simp [hk]
            | none =>
              rw [nodeAt_cons_none (hg.trans hmk) p2]
              rw [nodeAt_cons_none (t := RT.mk m d dep) (by simpa [RT.map] using hmk) p2]
              simp [hk]
      | none =>
        rw [registerSegs_cons_fresh hm s2 r2] at h
        obtain ⟨f, hf, ht2⟩ := Option.map_eq_some'.mp h
        subst ht2
        cases p with
        | nil => simp [nodeAt]
        | cons k p2 =>
          by_cases hk : k = s
          · subst hk
            have hg : mapGet (RT.mk (mapInsert m k f) d dep).map k = some f := by
              simp only [RT.map]
              exact mapGet_insert_self m k f
            rw [nodeAt_cons_some hg p2]
            rw [nodeAt_cons_none (t := RT.mk m d dep) (by simpa [RT.map] using hm) p2]
            rw [List.cons_prefix_cons]
            rw [ih _ f e s2 hf p2]
            rw [nodeAt_emptyMap p2 d (dep + 1)]
            constructor
            · rintro (rfl | hp2)
              · exact Or.inr ⟨rfl, nil_pre _⟩
              · exact Or.inr ⟨rfl, hp2⟩
            · rintro (habs | ⟨-, hp2⟩)
              · exact absurd habs (by simp)
              · exact Or.inr hp2
          · have hne : s ≠ k := fun hh => hk hh.symm
            have hg : mapGet (RT.mk (mapInsert m s f) d dep).map k = mapGet m k := by
              simp only [RT.map]
              exact mapGet_insert_ne m s f k hne
            rw [List.cons_prefix_cons]
            cases hmk : mapGet m k with
            | some sub =>
              rw [nodeAt_cons_some (hg.trans hmk) p2]
              rw [nodeAt_cons_some (t := RT.mk m d dep) (by simpa [RT.map] using hmk) p2]
              simp [hk]
            | none =>
              rw [nodeAt_cons_none (hg.trans hmk) p2]
              rw [nodeAt_cons_none (t := RT.mk m d dep) (by simpa [RT.map] using hmk) p2]
              simp [hk]

/-- Successful registration: each node that the registration creates sits at
depth `|p|` below the start, holds the registered entity at the route's end,
and every implicitly created intermediate layer copies the data of the last
node that existed on the walk before the registration. -/
lemma registerSegs_new :
    ∀ (rest : List String) (t t2 : RT T) (e : T) (s : String) (p : List String),
      DepthOk t → registerSegs t e s rest = some t2 →
      nodeAt t p = none → p <+: (s :: rest) →
      ∃ m, nodeAt t2 p = some m ∧ m.depth = t.depth + p.length ∧
        m.data = (if p = s :: rest then e else (walkNode t p).data) := by
  intro rest
  induction rest with
  | nil =>
    intro t t2 e s p hd h hnone hpre
    cases t with
    | mk m d dep =>
      cases hm : mapGet m s with
      | some x =>
        rw [registerSegs_nil_none hm] at h
        exact absurd h (by simp)
      | none =>
        rw [registerSegs_nil_some hm] at h
        have ht2 := Option.some.inj h
        subst ht2
        cases p with
        | nil => simp [nodeAt] at hnone
        | cons k p2 =>
          obtain ⟨hks, hp2⟩ := List.cons_prefix_cons.mp hpre
          subst hks
          have hp2nil : p2 = [] := pre_nil.mp hp2
          subst hp2nil
          have hg : mapGet (RT.mk (mapInsert m k (new_core e (dep + 1))) d dep).map k =
              some (new_core e (dep + 1)) := by
            simp only [RT.map]
            exact mapGet_insert_self m k _
          refine ⟨new_core e (dep + 1), ?_, ?_, ?_⟩
          · rw [nodeAt_cons_some hg []]
            rfl
          · simp [new_core, RT.depth]
          · simp [new_core, RT.data]
  | cons s2 r2 ih =>
    intro t t2 e s p hd h hnone hpre
    cases t with
    | mk m d dep =>
      cases p with
      | nil => simp [nodeAt] at hnone
      | cons k p2 =>
        obtain ⟨hks, hp2⟩ := List.cons_prefix_cons.mp hpre
        subst hks
        cases hm : mapGet m k with
        | some found =>
          rw [registerSegs_cons_found hm s2 r2] at h
          obtain ⟨f, hf, ht2⟩ := Option.map_eq_some'.mp h
          subst ht2
          have hmk : mapGet (RT.mk m d dep).map k = some found := by
            simpa [RT.map] using hm
          have hnone2 : nodeAt found p2 = none := by
            rw [nodeAt_cons_some hmk p2] at hnone
            exact hnone
          obtain ⟨hdf, hdepf⟩ := depthOk_sub hd hmk
          obtain ⟨mm, hmm, hmdep, hmdata⟩ := ih found f e s2 p2 hdf hf hnone2 hp2
          have hg : mapGet (RT.mk (mapInsert m k f) d dep).map k = some f := by
            simp only [RT.map]
            exact mapGet_insert_self m k f
          refine ⟨mm, ?_, ?_, ?_⟩
          · rw [nodeAt_cons_some hg p2]
            exact hmm
          · rw [hmdep, hdepf]
            simp only [RT.depth, List.length_cons]
            omega
          · rw [hmdata, walkNode_cons_some hmk p2]
            by_cases hif : p2 = s2 :: r2
            · simp [hif]
            · have hif2 : ¬ (k :: p2 = k :: s2 :: r2) := by
                simp [hif]
              simp [hif, hif2]
        | none =>
          rw [registerSegs_cons_fresh hm s2 r2] at h
          obtain ⟨f, hf, ht2⟩ := Option.map_eq_some'.mp h
          subst ht2
          have hmk : mapGet (RT.mk m d dep).map k = none := by
            simpa [RT.map] using hm
          have hg : mapGet (RT.mk (mapInsert m k f) d dep).map k = some f := by
            simp only [RT.map]
            exact mapGet_insert_self m k f
          cases p2 with
          | nil =>
            obtain ⟨mm, hmm, hmdata, hmdep⟩ :=
              registerSegs_preserve r2 (RT.mk [] d (dep + 1)) f e s2 [] _ hf rfl
            have hmmf : mm = f := by
              simp only [nodeAt, Option.some.injEq] at hmm
              exact hmm.symm
            subst hmmf
            refine ⟨mm, ?_, ?_, ?_⟩
            · rw [nodeAt_cons_some hg []]
              rfl
            · rw [hmdep]
              simp [RT.depth]
            · have hne : ¬ ([k] = k :: s2 :: r2) := by simp
              rw [if_neg hne, walkNode_cons_none hmk []]
              rw [hmdata]
              simp [RT.data]
          | cons a p3 =>
            have hdi : DepthOk (RT.mk [] d (dep + 1)) := by
              intro q nq hq
              cases q with
              | nil =>
                have : nq = RT.mk [] d (dep + 1) := (Option.some.inj hq).symm
                subst this
                simp
              | cons b q2 =>
                rw [nodeAt_cons_none (by simp [RT.map, mapGet]) q2] at hq
                exact absurd hq (by simp)
            have hnone2 : nodeAt (RT.mk [] d (dep + 1)) (a :: p3) = none :=
              nodeAt_cons_none (by simp [RT.map, mapGet]) p3
            obtain ⟨mm, hmm, hmdep, hmdata⟩ :=
              ih (RT.mk [] d (dep + 1)) f e s2 (a :: p3) hdi hf hnone2 hp2
            refine ⟨mm, ?_, ?_, ?_⟩
            · rw [nodeAt_cons_some hg (a :: p3)]
              exact hmm
            · rw [hmdep]
              simp only [RT.depth, List.length_cons]
              omega
            · rw [hmdata, walkNode_cons_none hmk (a :: p3)]
              rw [walkNode_cons_none (t := RT.mk [] d (dep + 1)) (by simp [RT.map, mapGet]) p3]
              by_cases hif : a :: p3 = s2 :: r2
              · simp [hif]
              · have hif2 : ¬ (k :: a :: p3 = k :: s2 :: r2) := by
                  simp [hif]
                rw [if_neg hif, if_neg hif2]
                simp [RT.data]

/-- Spec side of C9: the registration whose route is the longest registered
prefix of `keys`, if any (routes of successful builds are distinct, so the
maximum is unique). -/
def bestReg (regs : List (List String × T)) (keys : List String) :
    Option (List String × T) :=
  regs.foldl
    (fun best rv =>
      if rv.1.isPrefixOf keys then
        match best with
        | none => some rv
        | some b => if b.1.length < rv.1.length then some rv else some b
      else best)
    none

/-- Spec side of C9: the value registered for the longest registered prefix
of `keys`, falling back to the root's value when no registered prefix
matches. -/
def specVal (rootv : T) (regs : List (List String × T))
    (keys : List String) : T :=
  match bestReg regs keys with
  | some rv => rv.2
  | none => rootv

/-- Spec side of C9, claim reading of the metadata: the number of segments
of the longest registered prefix (`0` when none matches). -/
def specRegLen (regs : List (List String × T)) (keys : List String) : Nat :=
  match bestReg regs keys with
  | some rv => rv.1.length
  | none => 0

/-- `p` is the route of a node the registrations create: empty (the root) or
a prefix of some registered route (registrations create implicit layers for
every proper prefix of their route). -/
def chainPred (regs : List (List String × T)) (p : List String) : Prop :=
  p = [] ∨ ∃ rv ∈ regs, p <+: rv.1

/-- Boolean version of `chainPred`. -/
def chainB (regs : List (List String × T)) (p : List String) : Bool :=
  p.isEmpty || regs.any fun rv => p.isPrefixOf rv.1

lemma chainB_iff {regs : List (List String × T)} {p : List String} :
    chainB regs p = true ↔ chainPred regs p := by
  simp [chainB, chainPred, List.any_eq_true, List.isEmpty_iff, isPrefixOf_iff]

/-- Spec side of the amended C9 metadata: the length of the longest prefix
of `keys` every node of which exists in the trie built from the
registrations (the root, or a prefix of some registered route). -/
def specWalk (regs : List (List String × T)) (keys : List String) : Nat :=
  Nat.findGreatest (fun n => chainB regs (keys.take n) = true) keys.length

lemma bestReg_append (regs : List (List String × T)) (rv : List String × T)
    (keys : List String) :
    bestReg (regs ++ [rv]) keys =
      (if rv.1.isPrefixOf keys then
        match bestReg regs keys with
        | none => some rv
        | some b => if b.1.length < rv.1.length then some rv else some b
      else bestReg regs keys) := by
  unfold bestReg
  rw [List.foldl_append]
  simp only [List.foldl_cons, List.foldl_nil]

lemma bestReg_aux_mem (keys : List String) :
    ∀ (regs : List (List String × T)) (acc : Option (List String × T))
      (b : List String × T),
      List.foldl
        (fun best rv =>
          if rv.1.isPrefixOf keys then
            match best with
            | none => some rv
            | some b2 => if b2.1.length < rv.1.length then some rv else some b2
          else best)
        acc regs = some b →
      (b ∈ regs ∧ b.1 <+: keys) ∨ acc = some b := by
  intro regs
  induction regs with
  | nil => intro acc b h; exact Or.inr h
  | cons rv rest ih =>
    intro acc b h
    rw [List.foldl_cons] at h
    rcases ih _ b h with ⟨hmem, hpre⟩ | hacc
    · exact Or.inl ⟨List.mem_cons_of_mem rv hmem, hpre⟩
    · by_cases hc : rv.1.isPrefixOf keys = true
      · rw [if_pos hc] at hacc
        split at hacc
        · have : rv = b := Option.some.inj hacc
          subst this
          exact Or.inl ⟨List.mem_cons_self rv rest, isPrefixOf_iff.mp hc⟩
        · split at hacc
          · have : rv = b := Option.some.inj hacc
            subst this
            exact Or.inl ⟨List.mem_cons_self rv rest, isPrefixOf_iff.mp hc⟩
          · exact Or.inr hacc
      · rw [if_neg hc] at hacc
        exact Or.inr hacc

lemma bestReg_mem {regs : List (List String × T)} {keys : List String}
    {b : List String × T} (h : bestReg regs keys = some b) :
    b ∈ regs ∧ b.1 <+: keys := by
  rcases bestReg_aux_mem keys regs none b h with hres | habs
  · exact hres
  · exact absurd habs (by simp)

lemma bestReg_congr_aux (keys1 keys2 : List String) :
    ∀ (regs : List (List String × T)) (acc : Option (List String × T)),
      (∀ rv ∈ regs, (rv.1 <+: keys1 ↔ rv.1 <+: keys2)) →
      List.foldl
        (fun best rv =>
          if rv.1.isPrefixOf keys1 then
            match best with
            | none => some rv
            | some b2 => if b2.1.length < rv.1.length then some rv else some b2
          else best)
        acc regs =
      List.foldl
        (fun best rv =>
          if rv.1.isPrefixOf keys2 then
            match best with
            | none => some rv
            | some b2 => if b2.1.length < rv.1.length then some rv else some b2
          else best)
        acc regs := by
  intro regs
  induction regs with
  | nil => intro acc _; rfl
  | cons rv rest ih =>
    intro acc h
    rw [List.foldl_cons, List.foldl_cons]
    have hrest : ∀ rv2 ∈ rest, (rv2.1 <+: keys1 ↔ rv2.1 <+: keys2) :=
      fun rv2 h2 => h rv2 (List.mem_cons_of_mem rv h2)
    have hrv := h rv (List.mem_cons_self rv rest)
    by_cases hc : rv.1.isPrefixOf keys1 = true
    · have hc2 : rv.1.isPrefixOf keys2 = true :=
        isPrefixOf_iff.mpr (hrv.mp (isPrefixOf_iff.mp hc))
      rw [if_pos hc, if_pos hc2]
      exact ih _ hrest
    · have hc2 : ¬ rv.1.isPrefixOf keys2 = true := by
        intro habs
        exact hc (isPrefixOf_iff.mpr (hrv.mpr (isPrefixOf_iff.mp habs)))
      rw [if_neg hc, if_neg hc2]
      exact ih _ hrest

lemma bestReg_congr {keys1 keys2 : List String}
    (regs : List (List String × T))
    (h : ∀ rv ∈ regs, (rv.1 <+: keys1 ↔ rv.1 <+: keys2)) :
    bestReg regs keys1 = bestReg regs keys2 :=
  bestReg_congr_aux keys1 keys2 regs none h

lemma chainPred_append {regs : List (List String × T)}
    {rv : List String × T} {p : List String} :
    chainPred (regs ++ [rv]) p ↔ (chainPred regs p ∨ p <+: rv.1) := by
  simp only [chainPred, List.mem_append, List.mem_singleton]
  constructor
  · rintro (rfl | ⟨x, hx | rfl, hpre⟩)
    · exact Or.inl (Or.inl rfl)
    · exact Or.inl (Or.inr ⟨x, hx, hpre⟩)
    · exact Or.inr hpre
  · rintro ((rfl | ⟨x, hx, hpre⟩) | hpre)
    · exact Or.inl rfl
    · exact Or.inr ⟨x, Or.inl hx, hpre⟩
    · exact Or.inr ⟨rv, Or.inr rfl, hpre⟩

/-- The invariant tying a built trie to the list of registrations it was
built from: its chains are exactly the prefixes of registered routes, every
node's data is the value of the longest registered prefix of its route
(root value if none), and every node's depth is the length of its route. -/
def TableInv (rootv : T) (regs : List (List String × T)) (t : RT T) : Prop :=
  (∀ p, (nodeAt t p).isSome ↔ chainPred regs p) ∧
  (∀ p n, nodeAt t p = some n →
    n.data = specVal rootv regs p ∧ n.depth = p.length)

lemma tableInv_nil (rootv : T) : TableInv rootv [] (RT.new rootv) := by
  constructor
  · intro p
    rw [show RT.new rootv = RT.mk [] rootv 0 from rfl, nodeAt_emptyMap]
    simp [chainPred]
  · intro p n hn
    cases p with
    | nil =>
      have : n = RT.new rootv := (Option.some.inj hn).symm
      subst this
      exact ⟨rfl, rfl⟩
    | cons k ks =>
      rw [show RT.new rootv = RT.mk [] rootv 0 from rfl] at hn
      rw [nodeAt_cons_none (by simp [RT.map, mapGet]) ks] at hn
      exact absurd hn (by simp)

/-- The data at the end of the walk is the data of the longest registered
prefix, both for the walked-to prefix and for the full key list. -/
lemma specVal_take_walk {rootv : T} {regs : List (List String × T)}
    {t : RT T} (hchain : ∀ p, (nodeAt t p).isSome ↔ chainPred regs p)
    (p : List String) :
    specVal rootv regs (p.take (walkLen t p)) = specVal rootv regs p := by
  unfold specVal
  rw [bestReg_congr regs]
  intro rv hrv
  have hrvchain : (nodeAt t rv.1).isSome :=
    (hchain rv.1).mpr (Or.inr ⟨rv, hrv, List.prefix_rfl⟩)
  constructor
  · intro hpre
    exact hpre.trans (take_pre p (walkLen t p))
  · intro hpre
    have heq : rv.1 = p.take rv.1.length := List.prefix_iff_eq_take.mp hpre
    have hle : rv.1.length ≤ p.length := hpre.length_le
    have hsome : (nodeAt t (p.take rv.1.length)).isSome := by
      rw [← heq]
      exact hrvchain
    have hlew : rv.1.length ≤ walkLen t p :=
      le_walkLen_of_chain p rv.1.length t hle hsome
    rw [heq]
    exact List.take_isPrefix_take.mpr (Or.inl hlew)

/-- One successful `register` call extends the invariant by the new
registration. -/
lemma tableInv_register {rootv : T} {regs : List (List String × T)}
    {t t2 : RT T} {route : List String} {v : T}
    (hinv : TableInv rootv regs t) (h : register t v route = some t2) :
    TableInv rootv (regs ++ [(route, v)]) t2 := by
  obtain ⟨hchain, hdata⟩ := hinv
  cases route with
  | nil => exact absurd h (by simp [register])
  | cons s rest =>
    rw [register_eq_segs] at h
    have htdep : t.depth = 0 := (hdata [] t rfl).2
    have hDok : DepthOk t := by
      intro p n hn
      rw [htdep, (hdata p n hn).2]
      omega
    have hNot : nodeAt t (s :: rest) = none := by
      cases hcase : nodeAt t (s :: rest) with
      | some x =>
        have := (registerSegs_none_iff rest t v s).mpr (by rw [hcase]; simp)
        rw [this] at h
        exact absurd h (by simp)
      | none => rfl
    constructor
    · intro p
      rw [registerSegs_chains rest t t2 v s h p, hchain p, chainPred_append]
    · intro p n hn2
      cases hold : nodeAt t p with
      | some n0 =>
        obtain ⟨mm, hmm, hmdata, hmdep⟩ :=
          registerSegs_preserve rest t t2 v s p n0 h hold
        have hnm : n = mm := by
          rw [hn2] at hmm
          exact Option.some.inj hmm
        subst hnm
        obtain ⟨hd0, hdep0⟩ := hdata p n0 hold
        have hnpre : ¬ ((s :: rest).isPrefixOf p = true) := by
          intro htrue
          have hpre := isPrefixOf_iff.mp htrue
          have hsome : (nodeAt t p).isSome := by rw [hold]; simp
          have := nodeAt_isSome_of_pre (s :: rest) p t hpre hsome
          rw [hNot] at this
          exact absurd this (by simp)
        have hspec : specVal rootv (regs ++ [(s :: rest, v)]) p =
            specVal rootv regs p := by
          unfold specVal
          rw [bestReg_append, if_neg hnpre]
        rw [hspec, hmdata, hmdep]
        exact ⟨hd0, hdep0⟩
      | none =>
        have hsome2 : (nodeAt t2 p).isSome := by rw [hn2]; simp
        have hpre : p <+: (s :: rest) := by
          rw [registerSegs_chains rest t t2 v s h p] at hsome2
          rcases hsome2 with habs | hres
          · rw [hold] at habs
            exact absurd habs (by simp)
          · exact hres
        by_cases hpr : p = s :: rest
        · subst hpr
          obtain ⟨mm, hmm, hmdep, hmdata⟩ :=
            registerSegs_new rest t t2 v s (s :: rest) hDok h hold
              List.prefix_rfl
          have hnm : n = mm := by
            rw [hn2] at hmm
            exact Option.some.inj hmm
          subst hnm
          rw [if_pos rfl] at hmdata
          have hself : (s :: rest).isPrefixOf (s :: rest) = true :=
            isPrefixOf_iff.mpr List.prefix_rfl
          have hspec : specVal rootv (regs ++ [(s :: rest, v)]) (s :: rest) = v := by
            unfold specVal
            rw [bestReg_append, if_pos hself]
            cases hbr : bestReg regs (s :: rest) with
            | none => rfl
            | some b =>
              obtain ⟨hbmem, hbpre⟩ := bestReg_mem hbr
              have hbchain : (nodeAt t b.1).isSome :=
                (hchain b.1).mpr (Or.inr ⟨b, hbmem, List.prefix_rfl⟩)
              have hbne : b.1 ≠ s :: rest := by
                intro habs
                rw [habs, hNot] at hbchain
                exact absurd hbchain (by simp)
              have hblt : b.1.length < (s :: rest).length := by
                have hle := hbpre.length_le
                rcases Nat.lt_or_ge b.1.length (s :: rest).length with hlt | hge
                · exact hlt
                · exact absurd (hbpre.eq_of_length (by omega)) hbne
              have hblt2 : b.1.length < rest.length + 1 := by
                simpa using hblt
              simp [hblt2]
          rw [hspec, hmdata, hmdep, htdep]
          exact ⟨rfl, by omega⟩
        · obtain ⟨mm, hmm, hmdep, hmdata⟩ :=
            registerSegs_new rest t t2 v s p hDok h hold hpre
          have hnm : n = mm := by
            rw [hn2] at hmm
            exact Option.some.inj hmm
          subst hnm
          rw [if_neg hpr] at hmdata
          have hwn := nodeAt_take_walkLen p t
          obtain ⟨hwdata, hwdep⟩ := hdata (p.take (walkLen t p)) (walkNode t p) hwn
          have hnpre : ¬ ((s :: rest).isPrefixOf p = true) := by
            intro htrue
            have hpre2 := isPrefixOf_iff.mp htrue
            have h1 := hpre2.length_le
            have h2 := hpre.length_le
            have hplen : p.length < (s :: rest).length := by
              rcases Nat.lt_or_ge p.length (s :: rest).length with hlt | hge
              · exact hlt
              · exact absurd (hpre.eq_of_length (by omega)) hpr
            omega
          have hspec1 : specVal rootv (regs ++ [(s :: rest, v)]) p =
              specVal rootv regs p := by
            unfold specVal
            rw [bestReg_append, if_neg hnpre]
          rw [hspec1, ← specVal_take_walk hchain p, ← hwdata, hmdata, hmdep, htdep]
          exact ⟨rfl, by omega⟩

/-- Building with further successful registrations extends the invariant. -/
lemma tableInv_build (rootv : T) :
    ∀ (regs2 regs : List (List String × T)) (t t2 : RT T),
      TableInv rootv regs t → buildTable t regs2 = some t2 →
      TableInv rootv (regs ++ regs2) t2 := by
  intro regs2
  induction regs2 with
  | nil =>
    intro regs t t2 hinv h
    have : t = t2 := Option.some.inj (by simpa [buildTable] using h)
    subst this
    simpa using hinv
  | cons rv rest ih =>
    intro regs t t2 hinv h
    obtain ⟨route, v⟩ := rv
    cases hr : register t v route with
    | none => rw [buildTable, hr] at h; exact absurd h (by simp)
    | some tm =>
      rw [buildTable, hr] at h
      have hm := tableInv_register hinv hr
      have := ih (regs ++ [(route, v)]) tm t2 hm h
      simpa [List.append_assoc] using this

lemma lookupList_walk :
    ∀ (rem : List String) (t : RT T) (start : Nat),
      lookupList t rem start =
        some ⟨(walkNode t rem).data, (walkNode t rem).depth,
          start + walkLen t rem, walkNode t rem⟩ := by
  intro rem
  induction rem with
  | nil => intro t start; simp [lookupList, walkNode, walkLen]
  | cons k ks ih =>
    intro t start
    cases hm : mapGet t.map k with
    | some sub =>
      simp only [lookupList, hm, walkNode, walkLen]
      rw [ih sub (start + 1)]
      have : start + 1 + walkLen sub ks = start + (walkLen sub ks + 1) := by omega
      rw [this]
    | none =>
      simp [lookupList, hm, walkNode, walkLen]

lemma walkLen_eq_specWalk {regs : List (List String × T)}
    {t : RT T} (hchain : ∀ p, (nodeAt t p).isSome ↔ chainPred regs p)
    (keys : List String) :
    walkLen t keys = specWalk regs keys := by
  have hPw : chainB regs (keys.take (walkLen t keys)) = true := by
    rw [chainB_iff]
    apply (hchain _).mp
    rw [nodeAt_take_walkLen keys t]
    simp
  have hwle : walkLen t keys ≤ keys.length := walkLen_le keys t
  have hge : walkLen t keys ≤ specWalk regs keys := by
    unfold specWalk
    exact Nat.le_findGreatest (P := fun n => chainB regs (keys.take n) = true)
      hwle hPw
  have hPg : chainB regs (keys.take (specWalk regs keys)) = true := by
    unfold specWalk
    exact Nat.findGreatest_spec (P := fun n => chainB regs (keys.take n) = true)
      hwle hPw
  have hgle : specWalk regs keys ≤ keys.length := by
    unfold specWalk
    exact Nat.findGreatest_le (P := fun n => chainB regs (keys.take n) = true)
      keys.length
  have hle : specWalk regs keys ≤ walkLen t keys := by
    apply le_walkLen_of_chain keys _ t hgle
    exact (hchain _).mpr (chainB_iff.mp hPg)
  omega

/-- C9 counterexample helper: the concrete table built by registering the
single route `["a", "b"]` with value `2` under root value `1`. -/
def exTable : RT Nat :=
  RT.mk [("a", RT.mk [("b", RT.mk [] 2 2)] 1 1)] 1 0

lemma exTable_build :
    buildTable (RT.new (1 : Nat)) [(["a", "b"], 2)] = some exTable := by
  have hreg : register (RT.new (1 : Nat)) 2 ["a", "b"] =
      registerSegs (RT.new (1 : Nat)) 2 "a" ["b"] :=
    register_eq_segs (RT.new (1 : Nat)) 2 "a" ["b"]
  rw [buildTable, hreg]
  rfl

/-- C9 (amended): for every routing table built by successful registrations
and every key sequence, `lookup` returns the value registered for the
longest registered prefix of the keys (the root's value when no registered
prefix matches) — but its `keys_used` and `depth` metadata equal the length
of the longest prefix of the keys that exists as a chain of trie nodes
(including implicitly created intermediate layers), which can exceed the
longest registered prefix's length. -/
theorem lookup_longest_registered (rootv : T) (regs : List (List String × T))
    (t : RT T) (keys : List String)
    (h : buildTable (RT.new rootv) regs = some t) :
    ∃ r, lookup t keys = some r ∧ r.val = specVal rootv regs keys ∧
      r.keys_used = specWalk regs keys ∧ r.depth = r.keys_used := by
  have hinv : TableInv rootv regs t := by
    have h2 := tableInv_build rootv regs [] (RT.new rootv) t (tableInv_nil rootv) h
    simpa using h2
  obtain ⟨hchain, hdata⟩ := hinv
  have hlk : lookup t keys = some ⟨(walkNode t keys).data,
      (walkNode t keys).depth, 0 + walkLen t keys, walkNode t keys⟩ := by
    rw [lookup_eq_list]
    exact lookupList_walk keys t 0
  have hwn := nodeAt_take_walkLen keys t
  obtain ⟨hwdata, hwdep⟩ := hdata _ _ hwn
  have hws := walkLen_eq_specWalk hchain keys
  refine ⟨⟨(walkNode t keys).data, (walkNode t keys).depth,
    0 + walkLen t keys, walkNode t keys⟩, hlk, ?_, ?_, ?_⟩
  · show (walkNode t keys).data = specVal rootv regs keys
    rw [hwdata, specVal_take_walk hchain keys]
  · show 0 + walkLen t keys = specWalk regs keys
    omega
  · show (walkNode t keys).depth = 0 + walkLen t keys
    rw [hwdep, List.length_take]
    have := walkLen_le keys t
    omega

/-- C9 witness: registering `["a", "b"] ↦ 2` under root value `1` and
looking up `["a", "b"]` hits the registered route itself. -/
theorem lookup_longest_registered_witness :
    ∃ r, lookup exTable ["a", "b"] = some r ∧
      r.val = specVal 1 [(["a", "b"], 2)] ["a", "b"] ∧
      r.keys_used = specWalk [(["a", "b"], 2)] ["a", "b"] ∧
      r.depth = r.keys_used :=
  lookup_longest_registered 1 [(["a", "b"], 2)] exTable ["a", "b"] exTable_build

/-- C9 counterexample: with only `["a", "b"] ↦ 2` registered (root value
`1`), no registered prefix of `["a"]` exists, so the claim's reading of the
metadata ("number of segments matched along the longest registered prefix")
predicts `0`; the code returns `keys_used = depth = 1`, because the lookup
walks into the implicitly created node `"a"` (the returned value `1` is the
root fallback, as the claim says). -/
theorem lookup_metadata_counterexample :
    buildTable (RT.new (1 : Nat)) [(["a", "b"], 2)] = some exTable ∧
    specRegLen [(["a", "b"], 2)] ["a"] = 0 ∧
    ∃ r, lookup exTable ["a"] = some r ∧ r.val = 1 ∧ r.keys_used = 1 ∧
      r.depth = 1 ∧ r.keys_used ≠ specRegLen [(["a", "b"], 2)] ["a"] := by
  refine ⟨exTable_build, rfl, ?_⟩
  refine ⟨⟨1, 1, 1, RT.mk [("b", RT.mk [] 2 2)] 1 1⟩, ?_, rfl, rfl, rfl, by decide⟩
  rw [lookup_eq_list]
  rfl

/-- C10: `register` panics (returns the double-registration error) exactly
when the route is empty or its final node already exists in the trie —
including nodes that only exist as implicitly created intermediate layers of
a longer registered route; hence registering any nonempty (strict or full)
prefix of an already-registered route panics even though that prefix was
never itself registered. -/
theorem register_existing_node_panics (t t2 : RT T) (v w : T)
    (R r : List String)
    (h1 : register t v R = some t2) (h2 : r ≠ []) (h3 : r <+: R) :
    (nodeAt t2 r).isSome ∧ register t2 w r = none ∧
      ∀ (u : RT T) (e : T) (q : List String),
        register u e q = none ↔ (q = [] ∨ (nodeAt u q).isSome) := by
  have hiff : ∀ (u : RT T) (e : T) (q : List String),
      register u e q = none ↔ (q = [] ∨ (nodeAt u q).isSome) := by
    intro u e q
    cases q with
    | nil => simp [register]
    | cons s rest =>
      rw [register_eq_segs, registerSegs_none_iff]
      simp
  cases R with
  | nil => exact absurd (pre_nil.mp h3) h2
  | cons s rest =>
    rw [register_eq_segs] at h1
    have hsome : (nodeAt t2 r).isSome := by
      rw [registerSegs_chains rest t t2 v s h1 r]
      exact Or.inr h3
    exact ⟨hsome, (hiff t2 w r).mpr (Or.inr hsome), hiff⟩

/-- C10 witness: after registering `["a", "b"]`, registering its strict
prefix `["a"]` (never itself registered — the node exists only as an
implicit layer) panics; the empty route panics by the same iff. -/
theorem register_existing_node_panics_witness :
    (nodeAt exTable ["a"]).isSome ∧ register exTable 3 ["a"] = none ∧
      ∀ (u : RT Nat) (e : Nat) (q : List String),
        register u e q = none ↔ (q = [] ∨ (nodeAt u q).isSome) :=
  register_existing_node_panics (RT.new 1) exTable 2 3 ["a", "b"] ["a"]
    (by
      rw [register_eq_segs (RT.new (1 : Nat)) 2 "a" ["b"]]
      rfl)
    (by simp)
    ⟨["b"], rfl⟩

end RocketRouting
